import Mathlib

set_option maxHeartbeats 1000000

/- Verification development for the r5-core proof-of-work miner.

   The Python sources embedded here are
     src/client/r5miner/ethash_r5.py   (Ethash-R5 library),
     src/client/r5miner/r5miner.py     (CPU miner, client copy),
     src/r5miner/main.py               (CPU miner, standalone copy).

   Modelling conventions:
   - Python byte strings and bytearrays are `List Nat` (elements 0..255).
   - 32-bit words are `Nat`, with reductions mod 2^32 made explicit
     exactly where the Python code masks (`& 0xffffffff`).
   - The two Keccak primitives come from the external PyCryptodome
     library, so they are passed in as function parameters `h512`/`h256`;
     theorems assume only what a claim needs about them (output length,
     byte range).
   - Python operations that can raise (direct list indexing,
     `int.to_bytes` overflow, `% 0`) are modelled with `Option`;
     Python slices, which silently truncate, are pure `drop`/`take`. -/

/-! ## Byte-string helpers -/

/-- Python slice `l[off : off + n]` (nonnegative bounds, silently truncating). -/
def pySlice (l : List Nat) (off n : Nat) : List Nat := (l.drop off).take n

/-- Python bytearray slice assignment `l[off : off + v.length] = v`
(length-preserving when the slice is in bounds). -/
def pySetSlice (l : List Nat) (off : Nat) (v : List Nat) : List Nat :=
  l.take off ++ v ++ l.drop (off + v.length)

/-- Python `range(start, stop, step)` for a positive step. -/
def pyRange (start stop step : Nat) : List Nat :=
  List.range' start ((stop - start + step - 1) / step) step

/-- Python `int.from_bytes(b, "little")`. -/
def le_to_int (b : List Nat) : Nat := b.foldr (fun x acc => x + 256 * acc) 0

/-- Little-endian 4-byte serialization of a word already known to be below 2^32. -/
def leBytes4 (n : Nat) : List Nat :=
  [n % 256, n / 256 % 256, n / 65536 % 256, n / 16777216 % 256]

/-- Python `n.to_bytes(4, "little")`: raises `OverflowError` when `n >= 2^32`. -/
def int_to_le (n : Nat) : Option (List Nat) :=
  if n < 4294967296 then some (leBytes4 n) else none

/-- Python `n.to_bytes(8, "little")` (used on the nonce): raises when `n >= 2^64`. -/
def int_to_le8 (n : Nat) : Option (List Nat) :=
  if n < 18446744073709551616 then some ((List.range 8).map fun k => n / 256 ^ k % 256)
  else none

/-! ## ethash_r5.py: constants and FNV mixing -/

def EPOCH_LENGTH : Nat := 30000
def HASH_BYTES : Nat := 64
def HASH_WORDS : Nat := 16
def MIX_BYTES : Nat := 128
def DATASET_PARENTS : Nat := 256
def LOOP_ACCESSES : Nat := 64
def EXTRA_ROUNDS : Nat := 4
def CACHE_INIT_BYTES : Nat := 16777216   -- 1 << 24
def CACHE_GROWTH_BYTES : Nat := 131072   -- 1 << 17

/-- Sample cache-size table from ethash_r5.py (first ten epochs). -/
def CACHE_SIZES : List Nat :=
  [16776896, 16907456, 17039296, 17170112, 17301056,
   17432512, 17563072, 17693888, 17824192, 17955904]

/-- fnv(a, b) = ((a * 0x01000193) & 0xffffffff) ^ b. -/
def fnv (a b : Nat) : Nat := a * 16777619 % 4294967296 ^^^ b

/-- fnv_hash(mix, data): elementwise fnv; every call site passes equal lengths. -/
def fnv_hash (mix data : List Nat) : List Nat := List.zipWith fnv mix data

/-! ## ethash_r5.py: cache generation -/

/-- calc_cache_size(epoch) = CACHE_INIT_BYTES + CACHE_GROWTH_BYTES*epoch - HASH_BYTES. -/
def calc_cache_size (epoch : Nat) : Nat :=
  CACHE_INIT_BYTES + CACHE_GROWTH_BYTES * epoch - HASH_BYTES

/-- The cache-size selection inlined at the top of generate_cache:
the table entry when the epoch is tabulated, the closed form otherwise. -/
def cacheSizeSelected (block_number : Nat) : Nat :=
  let epoch := block_number / EPOCH_LENGTH
  if epoch < CACHE_SIZES.length then CACHE_SIZES.getD epoch 0
  else calc_cache_size epoch

/-- Final loop of generate_cache: reinterpret a byte buffer as
little-endian 32-bit words, 4 bytes at a time. -/
def bytesToWords (b : List Nat) : List Nat :=
  (pyRange 0 b.length 4).map fun i => le_to_int (pySlice b i 4)

/-- Body of the scramble loop of generate_cache, on the flat byte buffer:
src offset ((j - 1 + rows) % rows) * 64 (written (j + rows - 1) % rows, which
agrees with the Python integer expression for every j and rows >= 1), a 4-byte
read at row j's offset to pick the xor row, and an in-place 64-byte overwrite. -/
def scrambleFlatStep (h512 : List Nat → List Nat) (rows : Nat)
    (buf : List Nat) (j : Nat) : List Nat :=
  let srcOff := (j + rows - 1) % rows * HASH_BYTES
  let dstOff := j * HASH_BYTES
  let val := le_to_int (pySlice buf dstOff 4)
  let xorOff := val % rows * HASH_BYTES
  let block := List.zipWith Nat.xor (pySlice buf srcOff HASH_BYTES) (pySlice buf xorOff HASH_BYTES)
  pySetSlice buf dstOff (h512 block)

/-- generate_cache(seed, block_number) from ethash_r5.py: size selection,
zero-filled bytearray, first row = keccak512(seed), sequential fill of the
remaining rows, three scramble rounds over the flat buffer, then
reinterpretation as little-endian words. -/
def generate_cache (h512 : List Nat → List Nat) (seed : List Nat) (block_number : Nat) :
    List Nat :=
  let cache_size := cacheSizeSelected block_number
  let buf0 := pySetSlice (List.replicate cache_size 0) 0 (h512 seed)
  let buf1 := (pyRange HASH_BYTES cache_size HASH_BYTES).foldl
    (fun buf offset => pySetSlice buf offset (h512 (pySlice buf (offset - HASH_BYTES) HASH_BYTES)))
    buf0
  let rows := cache_size / HASH_BYTES
  let buf2 := (List.range 3).foldl
    (fun buf _ => (List.range rows).foldl (scrambleFlatStep h512 rows) buf) buf1
  bytesToWords buf2

/-! Row-level cache description, following the wording of claim C1. -/

/-- Row i of the sequential fill stage: row 0 = hash512(seed),
row (i+1) = hash512(row i). -/
def cacheRowSpec (h512 : List Nat → List Nat) (seed : List Nat) : Nat → List Nat
  | 0 => h512 seed
  | i + 1 => h512 (cacheRowSpec h512 seed i)

/-- The fill stage as a list of rows. -/
def cacheFillSpec (h512 : List Nat → List Nat) (seed : List Nat) (rowCount : Nat) :
    List (List Nat) :=
  (List.range rowCount).map (cacheRowSpec h512 seed)

/-- One scramble update of row j, reading rows as progressively updated:
srcIdx = (j - 1 + rowCount) mod rowCount, xorIdx = (first little-endian
32-bit word of the current row j) mod rowCount, and row j is replaced by
hash512(row srcIdx XOR row xorIdx). -/
def scrambleRowSpec (h512 : List Nat → List Nat) (rowCount : Nat)
    (rows : List (List Nat)) (j : Nat) : List (List Nat) :=
  let srcIdx := (j + rowCount - 1) % rowCount
  let xorIdx := le_to_int ((rows.getD j []).take 4) % rowCount
  rows.set j (h512 (List.zipWith Nat.xor (rows.getD srcIdx []) (rows.getD xorIdx [])))

/-- One scramble round visits every row in increasing order. -/
def scrambleRoundSpec (h512 : List Nat → List Nat) (rowCount : Nat)
    (rows : List (List Nat)) : List (List Nat) :=
  (List.range rowCount).foldl (scrambleRowSpec h512 rowCount) rows

/-- The cache at row level: the sequential fill followed by exactly three
scramble rounds. -/
def cacheSpec (h512 : List Nat → List Nat) (seed : List Nat) (rowCount : Nat) :
    List (List Nat) :=
  (List.range 3).foldl (fun rows _ => scrambleRoundSpec h512 rowCount rows)
    (cacheFillSpec h512 seed rowCount)

/-! ## ethash_r5.py: dataset item generation -/

/-- generate_dataset_item(cache, index) from ethash_r5.py.  Direct cache
indexing and `int.to_bytes` are the fallible operations; `rows = 0` makes
the Python `index % rows` raise, modelled as `none`.  `mix_int` always has
16 entries, so the Python read `mix_int[i % 16]` cannot fail and is
rendered with `getD`. -/
def generate_dataset_item (h512 : List Nat → List Nat) (cache : List Nat) (index : Nat) :
    Option (List Nat) :=
  let rows := cache.length / HASH_WORDS
  if rows = 0 then none else do
    let base := index % rows * HASH_WORDS
    let c0 ← cache.get? base
    let b0 ← int_to_le (c0 ^^^ index)
    let rest ← (List.range (HASH_WORDS - 1)).mapM fun i => do
      let w ← cache.get? (base + (i + 1))
      int_to_le w
    let mixH := h512 (b0 ++ rest.flatten)
    let mixInt0 := (List.range HASH_WORDS).map fun i => le_to_int (pySlice mixH (i * 4) 4)
    let mixF ← (List.range DATASET_PARENTS).foldlM
      (fun mixInt i => do
        let parent := fnv (index ^^^ i) (mixInt.getD (i % 16) 0) % rows
        let parentWords := pySlice cache (parent * HASH_WORDS) HASH_WORDS
        (List.range HASH_WORDS).mapM fun k => do
          let a ← mixInt.get? k
          let b ← parentWords.get? k
          pure (fnv a b))
      mixInt0
    let mixedB ← mixF.mapM int_to_le
    pure (h512 mixedB.flatten)

/-! ## ethash_r5.py: hashimoto -/

/-- seed = keccak512(header + nonce.to_bytes(8, "little")). -/
def seedBytes (h512 : List Nat → List Nat) (header : List Nat) (nonce : Nat) :
    Option (List Nat) :=
  (int_to_le8 nonce).map fun nb => h512 (header ++ nb)

/-- Initial 32-word mix of hashimoto: word i is the little-endian word at
seed offset (i % 16) * 4. -/
def hashimotoMix0 (seed : List Nat) : List Nat :=
  (List.range (MIX_BYTES / 4)).map fun i => le_to_int (pySlice seed (i % 16 * 4) 4)

/-- One iteration of the hashimoto main loop, carrying (mix, temp): the
parent row is chosen from the current mix, the two dataset items are
written into temp word by word (temp[j*16 + k] = item[k]), then the mix is
FNV-combined with temp.  `rows = 0` makes the Python `% rows` raise;
reading item[k] raises when the item has fewer than 16 words. -/
def hashimotoLoopBody (seed_head rows : Nat) (lookup : Nat → Option (List Nat))
    (st : List Nat × List Nat) (i : Nat) : Option (List Nat × List Nat) :=
  if rows = 0 then none else
  let mix := st.1
  let parent := fnv (i ^^^ seed_head) (mix.getD (i % mix.length) 0) % rows
  match lookup (2 * parent), lookup (2 * parent + 1) with
  | some item0, some item1 =>
    if 16 ≤ item0.length ∧ 16 ≤ item1.length then
      let t1 := (List.range HASH_WORDS).foldl (fun t k => t.set k (item0.getD k 0)) st.2
      let t2 := (List.range HASH_WORDS).foldl (fun t k => t.set (16 + k) (item1.getD k 0)) t1
      some (fnv_hash mix t2, t2)
    else none
  | _, _ => none

/-- The 32-word mix after the 64 loop accesses of hashimoto. -/
def hashimotoMixFinal (h512 : List Nat → List Nat) (header : List Nat) (nonce : Nat)
    (size : Nat) (lookup : Nat → Option (List Nat)) : Option (List Nat) := do
  let seed ← seedBytes h512 header nonce
  let seed_head := le_to_int (pySlice seed 0 4)
  let mix0 := hashimotoMix0 seed
  let st ← (List.range LOOP_ACCESSES).foldlM
    (hashimotoLoopBody seed_head (size / MIX_BYTES) lookup) (mix0, mix0)
  pure st.1

/-- Collapse loop of hashimoto: one FNV fold per 4 consecutive mix words
(`for i in range(0, len(mix), 4)`). -/
def collapseWords (mix : List Nat) : List Nat :=
  (pyRange 0 mix.length 4).map fun i =>
    fnv (fnv (fnv (mix.getD i 0) (mix.getD (i + 1) 0)) (mix.getD (i + 2) 0)) (mix.getD (i + 3) 0)

/-- The collapsed word list of hashimoto. -/
def hashimotoCollapsed (h512 : List Nat → List Nat) (header : List Nat) (nonce : Nat)
    (size : Nat) (lookup : Nat → Option (List Nat)) : Option (List Nat) :=
  (hashimotoMixFinal h512 header nonce size lookup).map collapseWords

/-- The serialized digest entering the extra rounds
(`digest = b"".join(int_to_le(x) for x in collapsed)`). -/
def hashimotoDigest (h512 : List Nat → List Nat) (header : List Nat) (nonce : Nat)
    (size : Nat) (lookup : Nat → Option (List Nat)) : Option (List Nat) := do
  let c ← hashimotoCollapsed h512 header nonce size lookup
  let bs ← c.mapM int_to_le
  pure bs.flatten

/-- One extra round of hashimoto: every 4-byte chunk of the buffer is
FNV-combined in place with the seed word at index (i div 4) % 10, then the
whole buffer is re-hashed with keccak256. -/
def extraRound (h256 : List Nat → List Nat) (seed b : List Nat) : Option (List Nat) := do
  let b2 ← (pyRange 0 b.length 4).foldlM
    (fun buf i => do
      let word := le_to_int (pySlice buf i 4)
      let sw := le_to_int (pySlice seed (i / 4 % 10 * 4) 4)
      let wb ← int_to_le (fnv word sw)
      pure (pySetSlice buf i wb))
    b
  pure (h256 b2)

/-- The four extra rounds of hashimoto. -/
def extraStage (h256 : List Nat → List Nat) (seed b : List Nat) : Option (List Nat) :=
  (List.range EXTRA_ROUNDS).foldlM (fun buf _ => extraRound h256 seed buf) b

/-- final_digest of hashimoto: the buffer after the four extra rounds. -/
def hashimotoExtra (h512 h256 : List Nat → List Nat) (header : List Nat) (nonce : Nat)
    (size : Nat) (lookup : Nat → Option (List Nat)) : Option (List Nat) := do
  let seed ← seedBytes h512 header nonce
  let d ← hashimotoDigest h512 header nonce size lookup
  extraStage h256 seed d

/-- hashimoto(header, nonce, size, lookup) from ethash_r5.py, returning
(final_digest, final_hash) with final_hash = keccak256(seed + final_digest). -/
def hashimoto (h512 h256 : List Nat → List Nat) (header : List Nat) (nonce : Nat)
    (size : Nat) (lookup : Nat → Option (List Nat)) : Option (List Nat × List Nat) := do
  let seed ← seedBytes h512 header nonce
  let fd ← hashimotoExtra h512 h256 header nonce size lookup
  pure (fd, h256 (seed ++ fd))

/-- The lookup closure bound by hashimoto_light: the 16 little-endian words
of generate_dataset_item(cache, index). -/
def lightLookup (h512 : List Nat → List Nat) (cache : List Nat) (index : Nat) :
    Option (List Nat) :=
  (generate_dataset_item h512 cache index).map fun item =>
    (List.range HASH_WORDS).map fun i => le_to_int (pySlice item (i * 4) 4)

/-- hashimoto_light(header, nonce, cache) from ethash_r5.py. -/
def hashimoto_light (h512 h256 : List Nat → List Nat) (header : List Nat) (nonce : Nat)
    (cache : List Nat) : Option (List Nat × List Nat) :=
  hashimoto h512 h256 header nonce (cache.length * 4) (lightLookup h512 cache)

/-! Word-level hashimoto description, following the wording of claims C2 and C3. -/

/-- The 16 seed words. -/
def seedWords (seed : List Nat) : List Nat :=
  (List.range 16).map fun i => le_to_int (pySlice seed (i * 4) 4)

/-- The claimed initial mix: the 16 seed words tiled twice. -/
def mix0Spec (seed : List Nat) : List Nat := seedWords seed ++ seedWords seed

/-- The claimed loop iteration: parent = fnv(i XOR seedHead, mix[i mod 32])
mod rows, temp = lookup(2*parent) ++ lookup(2*parent+1), and every mix word
is updated to fnv(mix[k], temp[k]). -/
def mixStepSpec (lw : Nat → List Nat) (seed_head rows : Nat) (mix : List Nat) (i : Nat) :
    List Nat :=
  let parent := fnv (i ^^^ seed_head) (mix.getD (i % 32) 0) % rows
  List.zipWith fnv mix (lw (2 * parent) ++ lw (2 * parent + 1))

/-- The claimed mix after the 64 loop accesses. -/
def mixLoopSpec (lw : Nat → List Nat) (seed_head rows : Nat) (seed : List Nat) : List Nat :=
  (List.range 64).foldl (mixStepSpec lw seed_head rows) (mix0Spec seed)

/-- Group-of-four FNV folding of the final mix: one word per group of 4
consecutive mix words. -/
def collapseSpec (mix : List Nat) : List Nat :=
  (List.range (mix.length / 4)).map fun g =>
    fnv (fnv (fnv (mix.getD (4 * g) 0) (mix.getD (4 * g + 1) 0)) (mix.getD (4 * g + 2) 0))
      (mix.getD (4 * g + 3) 0)

/-- The claimed extra round (amended form of claim C3): every 4-byte chunk
of the running buffer is FNV-combined with the seed word at index
(chunkIndex mod 10) and the whole buffer is re-hashed with hash256. -/
def extraRoundSpec (h256 : List Nat → List Nat) (seed b : List Nat) : List Nat :=
  h256 (((List.range (b.length / 4)).map fun c =>
    leBytes4 (fnv (le_to_int (pySlice b (4 * c) 4))
      (le_to_int (pySlice seed (c % 10 * 4) 4)))).flatten)

/-! ## Miner worker definitions (r5miner.py and main.py) -/

/-- The k-th nonce evaluated by a worker: the counter starts at the
worker id and is incremented by `step` each iteration.  In
src/r5miner/main.py `step` is the `total_workers` argument; in
src/client/r5miner/r5miner.py it is `os.cpu_count()`. -/
def workerNonce (workerId step k : Nat) : Nat := workerId + step * k

/-- Python `int.from_bytes(b, "big")`, used on final_hash before the
target comparison. -/
def be_to_int (b : List Nat) : Nat := b.foldl (fun acc x => 256 * acc + x) 0

/-- Outcome of one work unit's search loop in miner_worker (main.py). -/
inductive SearchOutcome where
  | submitted (nonce : Nat)
  | staleAbandoned
  | staleBeforeSubmit
  | exhausted
deriving DecidableEq

/-- The inner search loop of miner_worker in src/r5miner/main.py for one
work unit.  Real time is abstracted by the oracle `sched`: at iteration
`t`, `(sched t).1` says whether the 5-second staleness timer has fired,
`(sched t).2.1` is the height `eth_blockNumber` would report for that
staleness check and `(sched t).2.2` the height reported by the re-check
performed just before submission.  `finalHashOf n` abstracts the
final_hash bytes hashimoto_light yields for nonce `n`.  The returned list
collects every height actually polled, in order. -/
def minerSearch (finalHashOf : Nat → List Nat) (target currentBlock : Nat)
    (sched : Nat → Bool × Nat × Nat) :
    Nat → Nat → Nat → Nat → SearchOutcome × List Nat
  | 0, _, _, _ => (.exhausted, [])
  | fuel + 1, t, nonce, step =>
    if nonce < 18446744073709551615 then
      if (sched t).1 ∧ currentBlock < (sched t).2.1 then (.staleAbandoned, [(sched t).2.1])
      else
        if be_to_int (finalHashOf nonce) < target then
          if currentBlock < (sched t).2.2 then
            (.staleBeforeSubmit,
              (if (sched t).1 then [(sched t).2.1] else []) ++ [(sched t).2.2])
          else
            (.submitted nonce,
              (if (sched t).1 then [(sched t).2.1] else []) ++ [(sched t).2.2])
        else
          ((minerSearch finalHashOf target currentBlock sched fuel (t + 1)
              (nonce + step) step).1,
            (if (sched t).1 then [(sched t).2.1] else []) ++
              (minerSearch finalHashOf target currentBlock sched fuel (t + 1)
                (nonce + step) step).2)
    else (.exhausted, [])

/-! Submission parameter encoding (submit_work in both miner files). -/

/-- Fuel-indexed hexadecimal digit printer; the fuel only needs to cover
the digit count, and `hexRepr` supplies enough. -/
def hexReprAux : Nat → Nat → List Char
  | 0, _ => []
  | fuel + 1, n =>
    if n < 16 then [Nat.digitChar n]
    else hexReprAux fuel (n / 16) ++ [Nat.digitChar (n % 16)]

/-- Hexadecimal digits of n without leading zeros (Python format "x"),
one digit for n < 16. -/
def hexRepr (n : Nat) : List Char := hexReprAux (n + 1) n

/-- Python f-string zero padding to a minimum width. -/
def zpad (width : Nat) (l : List Char) : List Char :=
  List.replicate (width - l.length) '0' ++ l

/-- Python f"0x{nonce:016x}". -/
def nonceHex (n : Nat) : List Char := '0' :: 'x' :: zpad 16 (hexRepr n)

/-- Python bytes.hex(): two lowercase hex digits per byte. -/
def bytesHex (b : List Nat) : List Char :=
  (b.map fun x => [Nat.digitChar (x / 16), Nat.digitChar (x % 16)]).flatten

/-- Python "0x" + mix_digest.hex(). -/
def mixHex (b : List Nat) : List Char := '0' :: 'x' :: bytesHex b

/-- params built by submit_work in src/client/r5miner/r5miner.py:
[nonce_hex, mix_hex, pow_hash]. -/
def submitParamsClient (nonce : Nat) (mix : List Nat) (pow : List Char) :
    List (List Char) :=
  [nonceHex nonce, mixHex mix, pow]

/-- params built by submit_work in src/r5miner/main.py:
[nonce_hex, pow_hash, mix_hex]. -/
def submitParamsMain (nonce : Nat) (mix : List Nat) (pow : List Char) :
    List (List Char) :=
  [nonceHex nonce, pow, mixHex mix]

/-! Return-value handling of submit_work in src/r5miner/main.py. -/

/-- Shape of the value json_rpc_request hands back to submit_work:
`none` when the RPC call failed (request error or JSON-RPC error object,
both return None), otherwise the decoded JSON result. -/
inductive RpcResult where
  | rnone
  | rbool (b : Bool)
  | rstr (s : List Char)
  | rint (n : Int)
  | rlist (l : List Nat)
deriving DecidableEq

/-- Python bool(x) truthiness on the values RpcResult can hold. -/
def pyTruthy : RpcResult → Bool
  | .rnone => false
  | .rbool b => b
  | .rstr s => !s.isEmpty
  | .rint n => n != 0
  | .rlist l => !l.isEmpty

/-- submit_work's return in src/r5miner/main.py: `return bool(result)`. -/
def submitWorkMainResult (result : RpcResult) : Bool := pyTruthy result

/-! ## Concrete instances used by witnesses and counterexamples -/

/-- Stand-in 512-bit hash with the right output length (constant). -/
def constH512 : List Nat → List Nat := fun _ => List.replicate 64 0

/-- Stand-in 256-bit hash with the right output length (constant). -/
def constH256 : List Nat → List Nat := fun _ => List.replicate 32 0

/-- Stand-in 512-bit hash that keeps (a prefix of) its input visible:
pad with zero bytes and truncate to 64 bytes. -/
def padH512 : List Nat → List Nat := fun b => (b ++ List.replicate 64 0).take 64

/-- A 16-word all-zero cache. -/
def zeroCache16 : List Nat := List.replicate 16 0

/-- A 32-byte all-zero header. -/
def zeroHeader32 : List Nat := List.replicate 32 0

/-- A lookup that always returns a 16-word zero row. -/
def zeroLookup : Nat → Option (List Nat) := fun _ => some (List.replicate 16 0)

/-! ## Helper lemmas -/

theorem hexReprAux_length_le (fuel : Nat) :
    ∀ n k : Nat, 0 < k → n < 16 ^ k → (hexReprAux fuel n).length ≤ k := by
  induction fuel with
  | zero => intro n k hk _; simp [hexReprAux]
  | succ fuel ih =>
    intro n k hk hn
    unfold hexReprAux
    split
    · simp only [List.length_cons, List.length_nil]
      omega
    · rename_i hge
      have hk2 : 2 ≤ k := by
        rcases Nat.lt_or_ge k 2 with hlt | hge2
        · exfalso
          have hk1 : k = 1 := by omega
          subst hk1
          simp at hn
          omega
        · exact hge2
      have hdiv : n / 16 < 16 ^ (k - 1) := by
        apply Nat.div_lt_of_lt_mul
        have : 16 ^ (k - 1) * 16 = 16 ^ k := by
          rw [← pow_succ]
          congr 1
          omega
        omega
      have := ih (n / 16) (k - 1) (by omega) hdiv
      simp only [List.length_append, List.length_cons, List.length_nil]
      omega

theorem hexRepr_length_le_16 (n : Nat) (h : n < 18446744073709551616) :
    (hexRepr n).length ≤ 16 := by
  apply hexReprAux_length_le (n + 1) n 16 (by omega)
  have h16 : (16 : Nat) ^ 16 = 18446744073709551616 := by norm_num
  omega

theorem zpad_length (w : Nat) (l : List Char) (h : l.length ≤ w) :
    (zpad w l).length = w := by
  simp [zpad]
  omega

theorem bytesHex_length (b : List Nat) : (bytesHex b).length = 2 * b.length := by
  induction b with
  | nil => rfl
  | cons x r ih =>
    have hc : bytesHex (x :: r) =
        [Nat.digitChar (x / 16), Nat.digitChar (x % 16)] ++ bytesHex r := rfl
    rw [hc]
    simp only [List.length_append, List.length_cons, List.length_nil, ih]
    omega

/-! ## Claim C5 -/

/-- Claim C5 (code_bug evaluation): in src/client/r5miner/r5miner.py the
nonce counter advances by os.cpu_count(), not by the number of workers
actually launched (the -cpu argument).  If two workers run on a host where
os.cpu_count() = 1, worker 0's second nonce equals worker 1's first nonce,
so two workers evaluate the same nonce — contradicting the claim (and the
code's own comment) that workers never evaluate the same nonce twice. -/
theorem workerNonce_overlap : workerNonce 0 1 1 = workerNonce 1 1 0 := rfl

/-! ## Claim C10 -/

/-- Claim C10: submit_work in src/r5miner/main.py returns bool(result):
truthy for every non-empty string (including "false"), False when the RPC
layer failed and handed back None, and total on every result shape. -/
theorem submitWorkMain_truthiness :
    (∀ s : List Char, submitWorkMainResult (.rstr s) = !s.isEmpty) ∧
    submitWorkMainResult (.rstr ['f', 'a', 'l', 's', 'e']) = true ∧
    submitWorkMainResult .rnone = false ∧
    ∀ r : RpcResult, submitWorkMainResult r = pyTruthy r :=
  ⟨fun _ => rfl, rfl, rfl, fun _ => rfl⟩

/-! ## Claim C8 -/

/-- Claim C8 is false on the code: for epoch 10, the first epoch past the
tabulated range, generate_cache selects calc_cache_size(10) = 18087872,
whose row count 18087872 / 64 = 282623 = 11 * 25693 is not prime — the
Python code never rounds the closed-form size to a prime row count. -/
theorem cacheSize_not_prime_counterexample :
    CACHE_SIZES.length = 10 ∧ cacheSizeSelected 300000 / 64 = 282623 ∧
    ¬ Nat.Prime (cacheSizeSelected 300000 / 64) := by
  refine ⟨rfl, rfl, ?_⟩
  rw [show cacheSizeSelected 300000 / 64 = 282623 from rfl]
  norm_num

/-- Claim C8 (amended): beyond the tabulated range the selected cache size
is exactly the closed form CACHE_INIT_BYTES + CACHE_GROWTH_BYTES * epoch
- HASH_BYTES, with no prime adjustment; the size is divisible by 64 but
its row count need not be prime. -/
theorem cacheSizeSelected_closed_form (bn : Nat)
    (hb : CACHE_SIZES.length ≤ bn / EPOCH_LENGTH) :
    cacheSizeSelected bn =
      CACHE_INIT_BYTES + CACHE_GROWTH_BYTES * (bn / EPOCH_LENGTH) - HASH_BYTES ∧
    64 ∣ cacheSizeSelected bn := by
  have h1 : cacheSizeSelected bn = calc_cache_size (bn / EPOCH_LENGTH) := by
    unfold cacheSizeSelected
    rw [if_neg (by omega)]
  constructor
  · rw [h1]; rfl
  · rw [h1]
    unfold calc_cache_size CACHE_INIT_BYTES CACHE_GROWTH_BYTES HASH_BYTES
    apply Nat.dvd_sub'
    · exact Nat.dvd_add ⟨262144, rfl⟩ (dvd_mul_of_dvd_left ⟨2048, rfl⟩ _)
    · exact dvd_rfl

/-- Witness for cacheSizeSelected_closed_form at block number 300000. -/
theorem cacheSizeSelected_closed_form_witness :
    cacheSizeSelected 300000 =
      CACHE_INIT_BYTES + CACHE_GROWTH_BYTES * (300000 / EPOCH_LENGTH) - HASH_BYTES ∧
    64 ∣ cacheSizeSelected 300000 :=
  cacheSizeSelected_closed_form 300000 (by decide)

/-! ## Claim C7 -/

/-- Claim C7 is false on the code: submit_work in src/r5miner/main.py
builds params = [nonce_hex, pow_hash, mix_hex], not the claimed order
(nonce, mixDigest, headerHash); at nonce 0, a 32-byte zero digest and the
one-character header string "h" the two orders differ. -/
theorem submitParams_order_counterexample :
    submitParamsMain 0 (List.replicate 32 0) ['h'] ≠
      [nonceHex 0, mixHex (List.replicate 32 0), ['h']] := by
  decide

/-- Claim C7 (amended): submit_work in src/client/r5miner/r5miner.py
passes (nonce, mixDigest, headerHash) while src/r5miner/main.py passes
(nonce, headerHash, mixDigest); in both, for a 64-bit nonce and a 32-byte
digest, the nonce is encoded as 0x followed by exactly 16 hex characters
and the mix digest as 0x followed by exactly 64 hex characters. -/
theorem submitParams_encoding (nonce : Nat) (hn : nonce < 18446744073709551616)
    (mix : List Nat) (hm : mix.length = 32) (pow : List Char) :
    submitParamsClient nonce mix pow = [nonceHex nonce, mixHex mix, pow] ∧
    submitParamsMain nonce mix pow = [nonceHex nonce, pow, mixHex mix] ∧
    (nonceHex nonce).length = 18 ∧ (nonceHex nonce).take 2 = ['0', 'x'] ∧
    (mixHex mix).length = 66 ∧ (mixHex mix).take 2 = ['0', 'x'] := by
  refine ⟨rfl, rfl, ?_, rfl, ?_, rfl⟩
  · have := zpad_length 16 (hexRepr nonce) (hexRepr_length_le_16 nonce hn)
    simp [nonceHex, List.length_cons]
    omega
  · have := bytesHex_length mix
    simp [mixHex, List.length_cons]
    omega

/-- Witness for submitParams_encoding at nonce 0 and a zero digest. -/
theorem submitParams_encoding_witness :
    submitParamsClient 0 (List.replicate 32 0) [] =
      [nonceHex 0, mixHex (List.replicate 32 0), []] ∧
    submitParamsMain 0 (List.replicate 32 0) [] =
      [nonceHex 0, [], mixHex (List.replicate 32 0)] ∧
    (nonceHex 0).length = 18 ∧ (nonceHex 0).take 2 = ['0', 'x'] ∧
    (mixHex (List.replicate 32 0)).length = 66 ∧
    (mixHex (List.replicate 32 0)).take 2 = ['0', 'x'] :=
  submitParams_encoding 0 (by decide) (List.replicate 32 0) (by decide) []

/-! ## Claim C6 -/

/-- Claim C6: in the search loop of miner_worker (src/r5miner/main.py), a
submission happens only for a nonce whose final hash, read big-endian, is
strictly below the target, and only when every block height the loop
polled — each periodic staleness check and the mandatory pre-submission
re-check — was at most the work unit's height; whenever a poll observes a
greater height the search is abandoned with no submission.  The 5-second
timer is abstracted by the oracle bit of `sched`. -/
theorem minerSearch_submit_safe (finalHashOf : Nat → List Nat) (target currentBlock : Nat)
    (sched : Nat → Bool × Nat × Nat) :
    ∀ fuel t nonce step n : Nat,
      (minerSearch finalHashOf target currentBlock sched fuel t nonce step).1 =
        SearchOutcome.submitted n →
      be_to_int (finalHashOf n) < target ∧
      ∀ h ∈ (minerSearch finalHashOf target currentBlock sched fuel t nonce step).2,
        h ≤ currentBlock := by
  intro fuel
  induction fuel with
  | zero =>
    intro t nonce step n hsub
    simp [minerSearch] at hsub
  | succ fuel ih =>
    intro t nonce step n hsub
    unfold minerSearch at hsub ⊢
    by_cases hmax : nonce < 18446744073709551615
    · rw [if_pos hmax] at hsub ⊢
      by_cases hstale : (sched t).1 ∧ currentBlock < (sched t).2.1
      · rw [if_pos hstale] at hsub
        simp at hsub
      · rw [if_neg hstale] at hsub ⊢
        by_cases hgood : be_to_int (finalHashOf nonce) < target
        · rw [if_pos hgood] at hsub ⊢
          by_cases hadv : currentBlock < (sched t).2.2
          · rw [if_pos hadv] at hsub
            simp at hsub
          · rw [if_neg hadv] at hsub ⊢
            have hn : nonce = n := by simpa using hsub
            subst hn
            refine ⟨hgood, ?_⟩
            intro h hmem
            rcases List.mem_append.1 hmem with hp | hs
            · by_cases hdue : (sched t).1
              · rw [if_pos hdue] at hp
                have : h = (sched t).2.1 := by simpa using hp
                subst this
                have : ¬ currentBlock < (sched t).2.1 := fun hc => hstale ⟨hdue, hc⟩
                omega
              · rw [if_neg hdue] at hp
                simp at hp
            · have : h = (sched t).2.2 := by simpa using hs
              subst this
              omega
        · rw [if_neg hgood] at hsub ⊢
          simp only [] at hsub
          obtain ⟨h1, h2⟩ := ih (t + 1) (nonce + step) step n hsub
          refine ⟨h1, ?_⟩
          intro h hmem
          rcases List.mem_append.1 hmem with hp | hs
          · by_cases hdue : (sched t).1
            · rw [if_pos hdue] at hp
              have : h = (sched t).2.1 := by simpa using hp
              subst this
              have : ¬ currentBlock < (sched t).2.1 := fun hc => hstale ⟨hdue, hc⟩
              omega
            · rw [if_neg hdue] at hp
              simp at hp
          · exact h2 h hs
    · rw [if_neg hmax] at hsub
      simp at hsub

/-- Witness for minerSearch_submit_safe: a one-iteration search that
submits nonce 0 against target 1 with no height ever polled above the
work unit's height. -/
theorem minerSearch_submit_safe_witness :
    be_to_int ((fun _ => ([] : List Nat)) 0) < 1 ∧
    ∀ h ∈ (minerSearch (fun _ => []) 1 0 (fun _ => (false, 0, 0)) 1 0 0 1).2, h ≤ 0 :=
  minerSearch_submit_safe (fun _ => []) 1 0 (fun _ => (false, 0, 0)) 1 0 0 1 0 rfl

/-! ## Buffer/row machinery lemmas -/

theorem flatten_length_const (w : Nat) (rows : List (List Nat))
    (hw : ∀ r ∈ rows, r.length = w) : rows.flatten.length = w * rows.length := by
  induction rows with
  | nil => simp
  | cons r rs ih =>
    simp only [List.flatten_cons, List.length_append, List.length_cons]
    rw [hw r (by simp), ih fun x hx => hw x (by simp [hx])]
    ring

theorem pySlice_flatten_row (w : Nat) (rows : List (List Nat))
    (hw : ∀ r ∈ rows, r.length = w) :
    ∀ j, j < rows.length → pySlice rows.flatten (w * j) w = rows.getD j [] := by
  induction rows with
  | nil => intro j hj; simp at hj
  | cons r rs ih =>
    intro j hj
    have hr : r.length = w := hw r (by simp)
    cases j with
    | zero =>
      simp only [pySlice, Nat.mul_zero, List.drop_zero, List.flatten_cons, List.getD_cons_zero]
      exact List.take_left' hr
    | succ j =>
      have harith : w * (j + 1) = r.length + w * j := by rw [hr]; ring
      simp only [pySlice, List.flatten_cons, List.getD_cons_succ, harith, List.drop_append]
      exact ih (fun x hx => hw x (by simp [hx])) j (by simpa using hj)

theorem pySetSlice_flatten_row (w : Nat) (rows : List (List Nat))
    (hw : ∀ r ∈ rows, r.length = w) :
    ∀ j, j < rows.length → ∀ v : List Nat, v.length = w →
      pySetSlice rows.flatten (w * j) v = (rows.set j v).flatten := by
  induction rows with
  | nil => intro j hj; simp at hj
  | cons r rs ih =>
    intro j hj v hv
    have hr : r.length = w := hw r (by simp)
    cases j with
    | zero =>
      simp only [pySetSlice, Nat.mul_zero, List.take_zero, List.nil_append, Nat.zero_add,
        List.set_cons_zero, List.flatten_cons]
      rw [hv, List.drop_left' hr]
    | succ j =>
      have harith : w * (j + 1) = r.length + w * j := by rw [hr]; ring
      simp only [pySetSlice, List.flatten_cons, List.set_cons_succ, harith, List.take_append]
      rw [show r.length + w * j + v.length = r.length + (w * j + v.length) from by ring,
        List.drop_append]
      have hih := ih (fun x hx => hw x (by simp [hx])) j (by simpa using hj) v hv
      simp only [pySetSlice] at hih
      rw [List.append_assoc, List.append_assoc]
      congr 1
      rw [← List.append_assoc]
      exact hih

theorem pySlice_take (l : List Nat) (o a b : Nat) (h : b ≤ a) :
    (pySlice l o a).take b = pySlice l o b := by
  simp only [pySlice, List.take_take]
  rw [Nat.min_eq_left h]

theorem pySlice_length (l : List Nat) (o n : Nat) :
    (pySlice l o n).length = min n (l.length - o) := by
  simp [pySlice]

theorem pySlice_subset (l : List Nat) (o n : Nat) :
    ∀ x ∈ pySlice l o n, x ∈ l := fun x hx =>
  List.mem_of_mem_drop (List.mem_of_mem_take hx)

theorem getD_map_range {α : Type} (f : Nat → α) (n j : Nat) (hj : j < n) (d : α) :
    ((List.range n).map f).getD j d = f j := by
  rw [List.getD_eq_getElem?_getD, List.getElem?_map, List.getElem?_range hj]
  rfl

theorem getD_range_map_self {α : Type} (l : List α) (d : α) :
    (List.range l.length).map (fun k => l.getD k d) = l := by
  apply List.ext_getElem
  · simp
  · intro i h1 h2
    simp only [List.getElem_map, List.getElem_range, List.getD_eq_getElem?_getD,
      List.getElem?_eq_getElem h2, Option.getD_some]

theorem foldl_set_run (base : Nat) (item : List Nat) :
    ∀ (n : Nat) (t : List Nat), base + n ≤ t.length → n ≤ item.length →
      (List.range n).foldl (fun tt k => tt.set (base + k) (item.getD k 0)) t =
        t.take base ++ item.take n ++ t.drop (base + n) := by
  intro n
  induction n with
  | zero =>
    intro t h1 _
    simp
  | succ n ih =>
    intro t h1 h2
    rw [List.range_succ, List.foldl_append, List.foldl_cons, List.foldl_nil]
    rw [ih t (by omega) (by omega)]
    have hlt : base + n < t.length := by omega
    have hbase : (t.take base).length = base := by
      simp only [List.length_take]
      omega
    have hitem : (item.take n).length = n := by
      simp only [List.length_take]
      omega
    have hslen : (t.take base ++ item.take n).length = base + n := by
      simp only [List.length_append, hbase, hitem]
    rw [List.set_append_right _ _ (by omega)]
    rw [List.drop_eq_getElem_cons hlt]
    have hpos : base + n - (t.take base ++ item.take n).length = 0 := by
      rw [hslen]; omega
    rw [hpos, List.set_cons_zero]
    have hitem1 : item.take (n + 1) = item.take n ++ [item.getD n 0] := by
      rw [List.take_succ]
      congr 1
      have hn : n < item.length := by omega
      rw [List.getElem?_eq_getElem hn]
      simp [List.getD_eq_getElem?_getD, List.getElem?_eq_getElem hn]
    rw [hitem1]
    have : base + (n + 1) = base + n + 1 := by omega
    rw [this]
    simp [List.append_assoc]

theorem fnv_lt (a b : Nat) (hb : b < 4294967296) : fnv a b < 4294967296 := by
  have h32 : (4294967296 : Nat) = 2 ^ 32 := by norm_num
  unfold fnv
  rw [h32] at hb ⊢
  exact Nat.xor_lt_two_pow (Nat.mod_lt _ (by norm_num)) hb

theorem le_to_int_lt_pow (b : List Nat) (hb : ∀ x ∈ b, x < 256) :
    le_to_int b < 256 ^ b.length := by
  induction b with
  | nil => simp [le_to_int]
  | cons x r ih =>
    have hx := hb x (by simp)
    have hr := ih fun y hy => hb y (by simp [hy])
    simp only [le_to_int, List.foldr_cons, List.length_cons] at *
    have hpow : 256 ^ (r.length + 1) = 256 * 256 ^ r.length := by ring
    omega

theorem le_to_int_lt_32 (b : List Nat) (hb : ∀ x ∈ b, x < 256) (hlen : b.length ≤ 4) :
    le_to_int b < 4294967296 := by
  have h1 := le_to_int_lt_pow b hb
  have h2 : 256 ^ b.length ≤ 256 ^ 4 := Nat.pow_le_pow_right (by norm_num) hlen
  have h3 : (256 : Nat) ^ 4 = 4294967296 := by norm_num
  omega

theorem int_to_le_of_lt (n : Nat) (h : n < 4294967296) : int_to_le n = some (leBytes4 n) := by
  simp [int_to_le, h]

theorem leBytes4_length (n : Nat) : (leBytes4 n).length = 4 := rfl

theorem leBytes4_bytes (n : Nat) : ∀ x ∈ leBytes4 n, x < 256 := by
  intro x hx
  simp only [leBytes4, List.mem_cons, List.not_mem_nil, or_false] at hx
  rcases hx with h | h | h | h <;> subst h <;> exact Nat.mod_lt _ (by norm_num)

theorem mapM_option_total {α β : Type} (f : α → Option β) (P : β → Prop) :
    ∀ l : List α, (∀ a ∈ l, ∃ b, f a = some b ∧ P b) →
      ∃ bs, l.mapM f = some bs ∧ bs.length = l.length ∧ ∀ b ∈ bs, P b := by
  intro l
  induction l with
  | nil => intro _; exact ⟨[], rfl, rfl, by simp⟩
  | cons a as ih =>
    intro h
    obtain ⟨b, hb, hPb⟩ := h a (by simp)
    obtain ⟨bs, hbs, hlen, hP⟩ := ih fun x hx => h x (by simp [hx])
    refine ⟨b :: bs, ?_, by simp [hlen], ?_⟩
    · rw [List.mapM_cons, hb, hbs]
      rfl
    · intro y hy
      rcases List.mem_cons.1 hy with hy | hy
      · rw [hy]; exact hPb
      · exact hP y hy

theorem xor_lt_32 (a b : Nat) (ha : a < 4294967296) (hb : b < 4294967296) :
    a ^^^ b < 4294967296 := by
  have h32 : (4294967296 : Nat) = 2 ^ 32 := by norm_num
  rw [h32] at ha hb ⊢
  exact Nat.xor_lt_two_pow ha hb

theorem get?_some_lt (cache : List Nat) (hcw : ∀ w ∈ cache, w < 4294967296)
    (k : Nat) (hk : k < cache.length) :
    ∃ y, cache.get? k = some y ∧ y < 4294967296 := by
  refine ⟨cache[k], ?_, hcw _ (List.getElem_mem hk)⟩
  rw [List.get?_eq_getElem?, List.getElem?_eq_getElem hk]

/-! ## Claim C9 -/

/-- Claim C9 (amended: totality part): for a cache of at least 16 words,
each below 2^32, and any index below 2^32, generate_dataset_item succeeds
— every direct cache read is in bounds and every intermediate mix word
stays below 2^32 so serialization cannot overflow — and returns exactly 64
bytes. -/
theorem generate_dataset_item_total (h512 : List Nat → List Nat)
    (hlen : ∀ b, (h512 b).length = 64) (hbyte : ∀ b, ∀ x ∈ h512 b, x < 256)
    (cache : List Nat) (hc16 : 16 ≤ cache.length)
    (hcw : ∀ w ∈ cache, w < 4294967296)
    (index : Nat) (hi : index < 4294967296) :
    ∃ item, generate_dataset_item h512 cache index = some item ∧ item.length = 64 := by
  have hr1 : 1 ≤ cache.length / 16 := by
    rw [Nat.le_div_iff_mul_le (by norm_num)]
    omega
  have hrle : cache.length / 16 * 16 ≤ cache.length := Nat.div_mul_le_self _ _
  have hmod : index % (cache.length / 16) < cache.length / 16 :=
    Nat.mod_lt _ (by omega)
  have hbase : index % (cache.length / 16) * 16 + 16 ≤ cache.length := by
    have h2 : (index % (cache.length / 16) + 1) * 16 ≤ cache.length / 16 * 16 :=
      Nat.mul_le_mul_right _ (by omega)
    omega
  simp only [generate_dataset_item, Option.bind_eq_bind, Option.pure_def,
    show HASH_WORDS = 16 from rfl, show DATASET_PARENTS = 256 from rfl]
  rw [if_neg (by omega)]
  obtain ⟨c0, hc0, hc0lt⟩ := get?_some_lt cache hcw (index % (cache.length / 16) * 16)
    (by omega)
  rw [hc0, Option.some_bind, int_to_le_of_lt _ (xor_lt_32 _ _ hc0lt hi), Option.some_bind]
  obtain ⟨rest, hrest, -, -⟩ := mapM_option_total
    (fun i => Option.bind
      (cache.get? (index % (cache.length / 16) * 16 + (i + 1)))
      fun w => int_to_le w)
    (fun _ => True) (List.range (16 - 1))
    (by
      intro a ha
      have ha15 : a < 15 := by simpa using ha
      obtain ⟨w, hw, hwlt⟩ := get?_some_lt cache hcw
        (index % (cache.length / 16) * 16 + (a + 1)) (by omega)
      refine ⟨leBytes4 w, ?_, trivial⟩
      simp only [hw, Option.some_bind, int_to_le_of_lt _ hwlt])
  rw [hrest, Option.some_bind]
  have hloop : ∀ (l : List Nat) (mixInt : List Nat), mixInt.length = 16 →
      (∀ w ∈ mixInt, w < 4294967296) →
      ∃ out,
        List.foldlM (fun mixInt i =>
          List.mapM (fun k =>
            Option.bind (mixInt.get? k) fun a =>
              Option.bind ((pySlice cache
                (fnv (index ^^^ i) (mixInt.getD (i % 16) 0) %
                  (cache.length / 16) * 16) 16).get? k)
                fun b => some (fnv a b))
            (List.range 16)) mixInt l = some out ∧
          out.length = 16 ∧ ∀ w ∈ out, w < 4294967296 := by
    intro l
    induction l with
    | nil =>
      intro mixInt h1 h2
      exact ⟨mixInt, rfl, h1, h2⟩
    | cons i l ih =>
      intro mixInt h1 h2
      simp only [List.foldlM_cons, Option.bind_eq_bind]
      have hpar : fnv (index ^^^ i) (mixInt.getD (i % 16) 0) %
          (cache.length / 16) < cache.length / 16 :=
        Nat.mod_lt _ (by omega)
      have hpwlen : (pySlice cache
          (fnv (index ^^^ i) (mixInt.getD (i % 16) 0) %
            (cache.length / 16) * 16) 16).length = 16 := by
        rw [pySlice_length]
        have h3 : (fnv (index ^^^ i) (mixInt.getD (i % 16) 0) %
            (cache.length / 16) + 1) * 16 ≤ cache.length / 16 * 16 :=
          Nat.mul_le_mul_right _ (by omega)
        omega
      obtain ⟨newMix, hnew, hnlen, hnlt⟩ := mapM_option_total
        (fun k =>
          Option.bind (mixInt.get? k) fun a =>
            Option.bind ((pySlice cache
              (fnv (index ^^^ i) (mixInt.getD (i % 16) 0) %
                (cache.length / 16) * 16) 16).get? k)
              fun b => some (fnv a b))
        (fun w => w < 4294967296) (List.range 16)
        (by
          intro k hk
          have hk16 : k < 16 := by simpa using hk
          obtain ⟨a, hga, halt⟩ := get?_some_lt mixInt h2 k (by omega)
          obtain ⟨b, hgb, hblt⟩ := get?_some_lt
            (pySlice cache
              (fnv (index ^^^ i) (mixInt.getD (i % 16) 0) %
                (cache.length / 16) * 16) 16)
            (fun x hx => hcw x (pySlice_subset _ _ _ x hx)) k
            (by rw [hpwlen]; exact hk16)
          refine ⟨fnv a b, ?_, fnv_lt _ _ hblt⟩
          simp only [hga, hgb, Option.some_bind])
      rw [hnew, Option.some_bind]
      apply ih
      · rw [hnlen, List.length_range]
      · exact hnlt
  obtain ⟨mixF, hmixF, hmlen, hmlt⟩ := hloop (List.range 256)
    ((List.range 16).map fun i => le_to_int
      (pySlice (h512 (leBytes4 (c0 ^^^ index) ++ rest.flatten)) (i * 4) 4))
    (by simp)
    (by
      intro w hw
      simp only [List.mem_map, List.mem_range] at hw
      obtain ⟨i, -, hweq⟩ := hw
      subst hweq
      apply le_to_int_lt_32
      · intro x hx
        exact hbyte _ _ (pySlice_subset _ _ _ x hx)
      · rw [pySlice_length]
        omega)
  rw [hmixF, Option.some_bind]
  obtain ⟨mixedB, hmb, -, -⟩ := mapM_option_total int_to_le (fun _ => True) mixF
    (fun a ha => ⟨leBytes4 a, int_to_le_of_lt _ (hmlt a ha), trivial⟩)
  rw [hmb, Option.some_bind]
  exact ⟨_, rfl, hlen _⟩

set_option maxRecDepth 100000

/-- Claim C9 is false as stated in its independence part: the raw index —
not just index mod rows — enters both the first mix word (cache[base] XOR
index) and every parent selection (fnv(index XOR i, ...)), so the item is
not invariant under reducing the index mod rows first.  With a 16-word
zero cache (rows = 1) and a padding hash that keeps its input visible,
index 1 and index 1 % rows = 0 yield different items. -/
theorem dataset_item_mod_counterexample :
    generate_dataset_item padH512 zeroCache16 1 ≠
      generate_dataset_item padH512 zeroCache16 (1 % (zeroCache16.length / HASH_WORDS)) := by
  decide

/-- Witness for generate_dataset_item_total on a zero cache at index 0. -/
theorem generate_dataset_item_total_witness :
    ∃ item, generate_dataset_item constH512 zeroCache16 0 = some item ∧ item.length = 64 :=
  generate_dataset_item_total constH512 (fun _ => by simp [constH512])
    (fun b x hx => by rw [List.eq_of_mem_replicate hx]; norm_num)
    zeroCache16 (by decide) (by decide) 0 (by norm_num)

/-! ## Claim C4 -/

/-- Claim C4: hashimoto_light(header, nonce, cache) is exactly
hashimoto(header, nonce, len(cache)*4, lookup) where the dataset byte size
is 4 times the cache word count and lookup yields the 16 little-endian
32-bit words of generate_dataset_item(cache, index). -/
theorem hashimoto_light_correct (h512 h256 : List Nat → List Nat) (header : List Nat)
    (nonce : Nat) (cache : List Nat) :
    hashimoto_light h512 h256 header nonce cache =
      hashimoto h512 h256 header nonce (cache.length * 4) (lightLookup h512 cache) ∧
    ∀ i, lightLookup h512 cache i =
      (generate_dataset_item h512 cache i).map fun item =>
        (List.range HASH_WORDS).map fun k => le_to_int (pySlice item (k * 4) 4) :=
  ⟨rfl, fun _ => rfl⟩

/-! ## Claim C2 -/

theorem temp_write_two (temp item0 item1 : List Nat) (ht : temp.length = 32)
    (h0 : item0.length = 16) (h1 : item1.length = 16) :
    (List.range 16).foldl (fun t k => t.set (16 + k) (item1.getD k 0))
      ((List.range 16).foldl (fun t k => t.set k (item0.getD k 0)) temp) =
      item0 ++ item1 := by
  have hf : (fun (t : List Nat) k => t.set k (item0.getD k 0)) =
      fun (t : List Nat) k => t.set (0 + k) (item0.getD k 0) := by
    funext t k
    rw [Nat.zero_add]
  rw [hf, foldl_set_run 0 item0 16 temp (by omega) (by omega)]
  simp only [List.take_zero, List.nil_append, Nat.zero_add]
  have hi0 : item0.take 16 = item0 := by
    rw [← h0]
    exact List.take_length item0
  rw [hi0]
  have ht1 : (item0 ++ temp.drop 16).length = 32 := by
    simp only [List.length_append, List.length_drop, h0, ht]
  rw [foldl_set_run 16 item1 16 (item0 ++ temp.drop 16) (by omega) (by omega)]
  have hi1 : item1.take 16 = item1 := by
    rw [← h1]
    exact List.take_length item1
  rw [hi1, List.take_left' h0]
  have hnil : (item0 ++ temp.drop 16).drop (16 + 16) = [] := by
    apply List.drop_eq_nil_of_le
    omega
  rw [hnil, List.append_nil]

theorem hashimotoMix0_tiling (seed : List Nat) : hashimotoMix0 seed = mix0Spec seed := rfl

theorem hashimoto_loop_spec (seed_head rows : Nat) (hrows : 0 < rows)
    (lookup : Nat → Option (List Nat)) (lw : Nat → List Nat)
    (hlk : ∀ i, lookup i = some (lw i) ∧ (lw i).length = 16) :
    ∀ (l : List Nat) (mix temp : List Nat), mix.length = 32 → temp.length = 32 →
      ∃ tf, List.foldlM (hashimotoLoopBody seed_head rows lookup) (mix, temp) l =
          some (l.foldl (mixStepSpec lw seed_head rows) mix, tf) ∧ tf.length = 32 := by
  intro l
  induction l with
  | nil =>
    intro mix temp h1 h2
    exact ⟨temp, rfl, h2⟩
  | cons i l ih =>
    intro mix temp h1 h2
    have hbody : hashimotoLoopBody seed_head rows lookup (mix, temp) i =
        some (mixStepSpec lw seed_head rows mix i,
          lw (2 * (fnv (i ^^^ seed_head) (mix.getD (i % 32) 0) % rows)) ++
            lw (2 * (fnv (i ^^^ seed_head) (mix.getD (i % 32) 0) % rows) + 1)) := by
      unfold hashimotoLoopBody
      rw [if_neg (by omega)]
      simp only [h1]
      rw [(hlk (2 * (fnv (i ^^^ seed_head) (mix.getD (i % 32) 0) % rows))).1,
        (hlk (2 * (fnv (i ^^^ seed_head) (mix.getD (i % 32) 0) % rows) + 1)).1]
      dsimp only
      rw [if_pos ⟨le_of_eq (hlk _).2.symm, le_of_eq (hlk _).2.symm⟩]
      rw [show HASH_WORDS = 16 from rfl,
        temp_write_two temp _ _ h2 (hlk _).2 (hlk _).2]
      unfold mixStepSpec fnv_hash
      rfl
    simp only [List.foldlM_cons, Option.bind_eq_bind]
    rw [hbody, Option.some_bind, List.foldl_cons]
    apply ih
    · unfold mixStepSpec
      simp only [List.length_zipWith, List.length_append, (hlk _).2, h1]
      omega
    · simp only [List.length_append, (hlk _).2]

theorem foldl_mixStep_length (lw : Nat → List Nat) (hlw : ∀ i, (lw i).length = 16)
    (seed_head rows : Nat) :
    ∀ (l : List Nat) (mix : List Nat), mix.length = 32 →
      (l.foldl (mixStepSpec lw seed_head rows) mix).length = 32 := by
  intro l
  induction l with
  | nil => intro mix h; exact h
  | cons i l ih =>
    intro mix h
    rw [List.foldl_cons]
    apply ih
    unfold mixStepSpec
    simp only [List.length_zipWith, List.length_append, hlw, h]
    omega

theorem collapse_eq_spec (mix : List Nat) (h : mix.length = 32) :
    collapseWords mix = collapseSpec mix := by
  unfold collapseWords collapseSpec
  rw [h, show pyRange 0 32 4 = [0, 4, 8, 12, 16, 20, 24, 28] from rfl,
    show (32 : Nat) / 4 = 8 from rfl, show List.range 8 = [0, 1, 2, 3, 4, 5, 6, 7] from rfl]
  simp only [List.map_cons, List.map_nil]

/-- Claim C2 (amended): hashimoto computes seed = hash512(header || 8-byte
little-endian nonce) with seedHead its first little-endian word, tiles the
16 seed words twice into a 32-word mix, runs 64 iterations with
parent = fnv(i XOR seedHead, mix[i mod 32]) mod (size/128) and
temp = lookup(2*parent) ++ lookup(2*parent+1) combined word-wise by fnv,
and finally collapses the mix by FNV-folding each group of 4 consecutive
words — producing 8 words (one per group), not the 4 the claim states. -/
theorem hashimoto_collapse_correct (h512 : List Nat → List Nat)
    (header : List Nat) (nonce : Nat) (hn : nonce < 18446744073709551616)
    (size : Nat) (hs : 0 < size / 128)
    (lookup : Nat → Option (List Nat)) (lw : Nat → List Nat)
    (hlk : ∀ i, lookup i = some (lw i) ∧ (lw i).length = 16) :
    ∃ seed, seedBytes h512 header nonce = some seed ∧
      hashimotoCollapsed h512 header nonce size lookup =
        some (collapseSpec (mixLoopSpec lw (le_to_int (pySlice seed 0 4))
          (size / 128) seed)) := by
  have hseed : seedBytes h512 header nonce =
      some (h512 (header ++ (List.range 8).map fun k => nonce / 256 ^ k % 256)) := by
    unfold seedBytes int_to_le8
    rw [if_pos hn]
    rfl
  refine ⟨_, hseed, ?_⟩
  unfold hashimotoCollapsed hashimotoMixFinal
  rw [hseed]
  simp only [Option.bind_eq_bind, Option.pure_def, Option.some_bind, Option.map_eq_map]
  obtain ⟨tf, htf, -⟩ := hashimoto_loop_spec
    (le_to_int (pySlice (h512 (header ++ (List.range 8).map fun k => nonce / 256 ^ k % 256))
      0 4))
    (size / MIX_BYTES) (by rw [show MIX_BYTES = 128 from rfl]; omega) lookup lw hlk
    (List.range LOOP_ACCESSES)
    (hashimotoMix0 (h512 (header ++ (List.range 8).map fun k => nonce / 256 ^ k % 256)))
    (hashimotoMix0 (h512 (header ++ (List.range 8).map fun k => nonce / 256 ^ k % 256)))
    (by simp [hashimotoMix0, show MIX_BYTES / 4 = 32 from rfl])
    (by simp [hashimotoMix0, show MIX_BYTES / 4 = 32 from rfl])
  simp only [htf, Option.some_bind, Option.map_some']
  rw [hashimotoMix0_tiling, show MIX_BYTES = 128 from rfl, show LOOP_ACCESSES = 64 from rfl]
  have hlen32 : ((List.range 64).foldl
      (mixStepSpec lw (le_to_int (pySlice
        (h512 (header ++ (List.range 8).map fun k => nonce / 256 ^ k % 256)) 0 4))
        (size / 128))
      (mix0Spec (h512 (header ++ (List.range 8).map fun k => nonce / 256 ^ k % 256)))).length
      = 32 :=
    foldl_mixStep_length lw (fun i => (hlk i).2) _ _ _ _ (by simp [mix0Spec, seedWords])
  rw [collapse_eq_spec _ hlen32]
  unfold mixLoopSpec
  rfl

/-- Claim C2 is false in its collapse count: at a concrete instance
(constant hash, zero header, nonce 0, one-row dataset) the collapsed mix
of hashimoto has 8 words — one per group of 4 of the 32 mix words — not 4. -/
theorem hashimoto_collapse_count_counterexample :
    (hashimotoCollapsed constH512 zeroHeader32 0 128 zeroLookup).map List.length ≠
      some 4 := by
  decide

/-- Witness for hashimoto_collapse_correct at a constant hash, empty
header, nonce 0, size 128 and an all-zero 16-word lookup. -/
theorem hashimoto_collapse_correct_witness :
    ∃ seed, seedBytes constH512 [] 0 = some seed ∧
      hashimotoCollapsed constH512 [] 0 128 zeroLookup =
        some (collapseSpec (mixLoopSpec (fun _ => List.replicate 16 0)
          (le_to_int (pySlice seed 0 4)) (128 / 128) seed)) :=
  hashimoto_collapse_correct constH512 [] 0 (by norm_num) 128 (by norm_num) zeroLookup
    (fun _ => List.replicate 16 0) (fun _ => ⟨rfl, by simp⟩)

/-! ## Claim C3 -/

theorem pySlice_append_left (J Z : List Nat) (o n : Nat) (hJ : J.length = o) :
    pySlice (J ++ Z) o n = Z.take n := by
  unfold pySlice
  rw [List.drop_left' hJ]

theorem pySetSlice_append_mid (J Z v : List Nat) (o : Nat) (hJ : J.length = o) :
    pySetSlice (J ++ Z) o v = J ++ v ++ Z.drop v.length := by
  unfold pySetSlice
  rw [List.take_left' hJ, ← hJ, List.drop_append]

theorem extraRound_chunks (seed : List Nat) (hseed : ∀ x ∈ seed, x < 256) (b : List Nat)
    (_hbb : ∀ x ∈ b, x < 256) :
    ∀ (m c : Nat), 4 * (c + m) ≤ b.length →
      (List.range' (4 * c) m 4).foldlM
        (fun buf i =>
          Option.bind (int_to_le (fnv (le_to_int (pySlice buf i 4))
            (le_to_int (pySlice seed (i / 4 % 10 * 4) 4)))) fun wb =>
            some (pySetSlice buf i wb))
        (((List.range c).map fun k =>
          leBytes4 (fnv (le_to_int (pySlice b (4 * k) 4))
            (le_to_int (pySlice seed (k % 10 * 4) 4)))).flatten ++ b.drop (4 * c))
      = some (((List.range (c + m)).map fun k =>
          leBytes4 (fnv (le_to_int (pySlice b (4 * k) 4))
            (le_to_int (pySlice seed (k % 10 * 4) 4)))).flatten ++ b.drop (4 * (c + m))) := by
  intro m
  induction m with
  | zero =>
    intro c _
    simp
  | succ m ih =>
    intro c hcm
    have hJlen : (((List.range c).map fun k =>
        leBytes4 (fnv (le_to_int (pySlice b (4 * k) 4))
          (le_to_int (pySlice seed (k % 10 * 4) 4)))).flatten).length = 4 * c := by
      rw [flatten_length_const 4]
      · simp
      · intro r hr
        simp only [List.mem_map] at hr
        obtain ⟨k, -, hk⟩ := hr
        rw [← hk]
        exact leBytes4_length _
    rw [List.range'_succ, List.foldlM_cons]
    have hslice : pySlice
        ((((List.range c).map fun k =>
          leBytes4 (fnv (le_to_int (pySlice b (4 * k) 4))
            (le_to_int (pySlice seed (k % 10 * 4) 4)))).flatten) ++ b.drop (4 * c))
        (4 * c) 4 = pySlice b (4 * c) 4 := by
      rw [pySlice_append_left _ _ _ _ hJlen]
      rfl
    have hwlt : fnv (le_to_int (pySlice b (4 * c) 4))
        (le_to_int (pySlice seed (4 * c / 4 % 10 * 4) 4)) < 4294967296 := by
      apply fnv_lt
      apply le_to_int_lt_32
      · exact fun x hx => hseed x (pySlice_subset _ _ _ x hx)
      · rw [pySlice_length]
        exact Nat.min_le_left _ _
    rw [hslice, int_to_le_of_lt _ hwlt, Option.some_bind]
    rw [pySetSlice_append_mid _ _ _ _ hJlen]
    have hstep : ((List.range c).map fun k =>
          leBytes4 (fnv (le_to_int (pySlice b (4 * k) 4))
            (le_to_int (pySlice seed (k % 10 * 4) 4)))).flatten ++
          leBytes4 (fnv (le_to_int (pySlice b (4 * c) 4))
            (le_to_int (pySlice seed (4 * c / 4 % 10 * 4) 4))) ++
          (b.drop (4 * c)).drop (leBytes4 (fnv (le_to_int (pySlice b (4 * c) 4))
            (le_to_int (pySlice seed (4 * c / 4 % 10 * 4) 4)))).length =
        ((List.range (c + 1)).map fun k =>
          leBytes4 (fnv (le_to_int (pySlice b (4 * k) 4))
            (le_to_int (pySlice seed (k % 10 * 4) 4)))).flatten ++ b.drop (4 * (c + 1)) := by
      rw [leBytes4_length, List.drop_drop, List.range_succ, List.map_append,
        List.flatten_append, Nat.mul_div_cancel_left c (by norm_num)]
      simp only [List.map_cons, List.map_nil, List.flatten_cons, List.flatten_nil,
        List.append_nil]
      rw [show 4 * c + 4 = 4 * (c + 1) from by ring, List.append_assoc]
    rw [hstep]
    simp only [Option.bind_eq_bind, Option.some_bind]
    rw [show 4 * c + 4 = 4 * (c + 1) from by ring]
    rw [ih (c + 1) (by omega), show c + 1 + m = c + (m + 1) from by ring]

theorem extraRound_spec_eq (h256 : List Nat → List Nat) (seed : List Nat)
    (hseed : ∀ x ∈ seed, x < 256) (b : List Nat) (hb : b.length = 32)
    (hbb : ∀ x ∈ b, x < 256) :
    extraRound h256 seed b = some (extraRoundSpec h256 seed b) := by
  unfold extraRound extraRoundSpec
  simp only [Option.bind_eq_bind, Option.pure_def]
  rw [hb]
  have hch := extraRound_chunks seed hseed b hbb 8 0 (by omega)
  simp only [List.range_zero, List.map_nil, List.flatten_nil, List.nil_append, Nat.mul_zero,
    List.drop_zero, Nat.zero_add] at hch
  rw [show pyRange 0 32 4 = List.range' 0 8 4 from rfl, hch, Option.some_bind]
  congr 1
  rw [show (32 : Nat) / 4 = 8 from rfl]
  have hdrop : b.drop (4 * 8) = [] := by
    apply List.drop_eq_nil_of_le
    omega
  rw [hdrop, List.append_nil]

theorem extraRoundSpec_iterate_inv (h256 : List Nat → List Nat)
    (hh : ∀ bb, (h256 bb).length = 32 ∧ ∀ x ∈ h256 bb, x < 256) (seed : List Nat) :
    ∀ (n : Nat) (b : List Nat), b.length = 32 → (∀ x ∈ b, x < 256) →
      ((fun bb => extraRoundSpec h256 seed bb)^[n] b).length = 32 ∧
        ∀ x ∈ (fun bb => extraRoundSpec h256 seed bb)^[n] b, x < 256 := by
  intro n
  induction n with
  | zero => intro b h1 h2; exact ⟨h1, h2⟩
  | succ n ih =>
    intro b h1 h2
    rw [Function.iterate_succ_apply']
    unfold extraRoundSpec
    exact ⟨(hh _).1, (hh _).2⟩

theorem extraStage_spec_eq (h256 : List Nat → List Nat)
    (hh : ∀ bb, (h256 bb).length = 32 ∧ ∀ x ∈ h256 bb, x < 256)
    (seed : List Nat) (hseed : ∀ x ∈ seed, x < 256) :
    ∀ (n : Nat) (b : List Nat), b.length = 32 → (∀ x ∈ b, x < 256) →
      (List.range n).foldlM (fun buf _ => extraRound h256 seed buf) b =
        some ((fun bb => extraRoundSpec h256 seed bb)^[n] b) := by
  intro n
  induction n with
  | zero => intro b h1 h2; rfl
  | succ n ih =>
    intro b h1 h2
    rw [List.range_succ, List.foldlM_append, ih b h1 h2]
    simp only [Option.bind_eq_bind, Option.some_bind, List.foldlM_cons, List.foldlM_nil]
    obtain ⟨hl32, hlb⟩ := extraRoundSpec_iterate_inv h256 hh seed n b h1 h2
    rw [extraRound_spec_eq h256 seed hseed _ hl32 hlb]
    simp only [Option.some_bind, Option.pure_def]
    rw [Function.iterate_succ_apply']

/-- Claim C3 (amended): each of the 4 extra rounds FNV-combines every
4-byte chunk of the running buffer with the seed word at index
(chunkIndex mod 10) and re-hashes the buffer with hash256 — but the
running buffer is 32 bytes (8 chunks), not 16: the collapse stage emits
32 bytes and hash256 keeps the buffer at 32 bytes; finalDigest is the
buffer after the 4 rounds and finalHash = hash256(seed || finalDigest). -/
theorem hashimoto_extra_correct (h512 h256 : List Nat → List Nat)
    (hh : ∀ bb, (h256 bb).length = 32 ∧ ∀ x ∈ h256 bb, x < 256)
    (seed : List Nat) (hseed : ∀ x ∈ seed, x < 256)
    (b : List Nat) (hb : b.length = 32) (hbb : ∀ x ∈ b, x < 256) :
    extraStage h256 seed b = some ((fun bb => extraRoundSpec h256 seed bb)^[4] b) ∧
    ∀ header nonce size lookup,
      hashimoto h512 h256 header nonce size lookup =
        (hashimotoExtra h512 h256 header nonce size lookup).map fun fd =>
          (fd, h256 ((seedBytes h512 header nonce).getD [] ++ fd)) := by
  constructor
  · unfold extraStage
    rw [show EXTRA_ROUNDS = 4 from rfl]
    exact extraStage_spec_eq h256 hh seed hseed 4 b hb hbb
  · intro header nonce size lookup
    unfold hashimoto hashimotoExtra
    cases hsb : seedBytes h512 header nonce with
    | none => simp [hsb]
    | some s =>
      simp only [hsb, Option.bind_eq_bind, Option.some_bind, Option.pure_def,
        Option.getD_some]
      cases hd : hashimotoDigest h512 header nonce size lookup with
      | none => simp [hd]
      | some d =>
        simp only [hd, Option.some_bind]
        cases hes : extraStage h256 s d with
        | none => simp [hes]
        | some fd => simp [hes]

/-- Claim C3 is false in its buffer size: at a concrete instance the
serialized digest entering the extra rounds is 32 bytes, not 16. -/
theorem hashimoto_digest_length_counterexample :
    (hashimotoDigest constH512 zeroHeader32 0 128 zeroLookup).map List.length ≠
      some 16 := by
  decide

/-- Witness for hashimoto_extra_correct with constant hashes, empty seed
and a 32-byte zero buffer. -/
theorem hashimoto_extra_correct_witness :
    extraStage constH256 [] (List.replicate 32 0) =
      some ((fun bb => extraRoundSpec constH256 [] bb)^[4] (List.replicate 32 0)) ∧
    ∀ header nonce size lookup,
      hashimoto constH512 constH256 header nonce size lookup =
        (hashimotoExtra constH512 constH256 header nonce size lookup).map fun fd =>
          (fd, constH256 ((seedBytes constH512 header nonce).getD [] ++ fd)) :=
  hashimoto_extra_correct constH512 constH256
    (fun bb => ⟨by simp [constH256],
      fun x hx => by rw [List.eq_of_mem_replicate hx]; norm_num⟩)
    [] (fun x hx => absurd hx (List.not_mem_nil x))
    (List.replicate 32 0) (by simp)
    (fun x hx => by rw [List.eq_of_mem_replicate hx]; norm_num)

/-! ## Claim C1 -/

theorem cacheSizeSelected_div64 (bn : Nat) :
    64 ∣ cacheSizeSelected bn ∧ 64 ≤ cacheSizeSelected bn := by
  simp only [cacheSizeSelected]
  split
  · rename_i hlt
    have htab : ∀ x ∈ CACHE_SIZES, x % 64 = 0 ∧ 64 ≤ x := by decide
    rw [List.getD_eq_getElem _ _ hlt]
    obtain ⟨h1, h2⟩ := htab _ (List.getElem_mem hlt)
    exact ⟨Nat.dvd_of_mod_eq_zero h1, h2⟩
  · unfold calc_cache_size CACHE_INIT_BYTES CACHE_GROWTH_BYTES HASH_BYTES
    constructor
    · apply Nat.dvd_sub'
      · exact Nat.dvd_add ⟨262144, rfl⟩ (dvd_mul_of_dvd_left ⟨2048, rfl⟩ _)
      · exact dvd_rfl
    · omega

theorem cacheRowSpec_length (h512 : List Nat → List Nat)
    (hl : ∀ b, (h512 b).length = 64) (seed : List Nat) :
    ∀ i, (cacheRowSpec h512 seed i).length = 64 := by
  intro i
  cases i with
  | zero => exact hl seed
  | succ i => exact hl _

theorem flatten_replicate_replicate (w : Nat) (a : Nat) :
    ∀ k, (List.replicate k (List.replicate w a)).flatten = List.replicate (w * k) a := by
  intro k
  induction k with
  | zero => simp
  | succ k ih =>
    rw [List.replicate_succ, List.flatten_cons, ih,
      show w * (k + 1) = w + w * k from by ring, List.replicate_add]

theorem pySlice_flatten_row' (w : Nat) (rows : List (List Nat))
    (hw : ∀ r ∈ rows, r.length = w) (j : Nat) (hj : j < rows.length) :
    pySlice rows.flatten (j * w) w = rows.getD j [] := by
  rw [Nat.mul_comm]
  exact pySlice_flatten_row w rows hw j hj

theorem pySetSlice_flatten_row' (w : Nat) (rows : List (List Nat))
    (hw : ∀ r ∈ rows, r.length = w) (j : Nat) (hj : j < rows.length)
    (v : List Nat) (hv : v.length = w) :
    pySetSlice rows.flatten (j * w) v = (rows.set j v).flatten := by
  rw [Nat.mul_comm]
  exact pySetSlice_flatten_row w rows hw j hj v hv

theorem cacheFillSpec_flatten_length (h512 : List Nat → List Nat)
    (hl : ∀ b, (h512 b).length = 64) (seed : List Nat) (s : Nat) :
    (cacheFillSpec h512 seed s).flatten.length = 64 * s := by
  rw [flatten_length_const 64]
  · simp [cacheFillSpec]
  · intro r hr
    simp only [cacheFillSpec, List.mem_map] at hr
    obtain ⟨i, -, hi⟩ := hr
    rw [← hi]
    exact cacheRowSpec_length h512 hl seed i

theorem generate_cache_fill (h512 : List Nat → List Nat)
    (hl : ∀ b, (h512 b).length = 64) (seed : List Nat) :
    ∀ (m s : Nat), 1 ≤ s →
      (List.range' (64 * s) m 64).foldl
        (fun buf offset => pySetSlice buf offset (h512 (pySlice buf (offset - 64) 64)))
        ((cacheFillSpec h512 seed s).flatten ++ List.replicate (64 * m) 0)
      = (cacheFillSpec h512 seed (s + m)).flatten := by
  intro m
  induction m with
  | zero =>
    intro s _
    simp
  | succ m ih =>
    intro s hs
    have hrows : ∀ r ∈ cacheFillSpec h512 seed s ++
        List.replicate (m + 1) (List.replicate 64 (0 : Nat)), r.length = 64 := by
      intro r hr
      rcases List.mem_append.1 hr with h | h
      · simp only [cacheFillSpec, List.mem_map] at h
        obtain ⟨i, -, hi⟩ := h
        rw [← hi]
        exact cacheRowSpec_length h512 hl seed i
      · rw [List.eq_of_mem_replicate h]
        simp
    have hcount : (cacheFillSpec h512 seed s ++
        List.replicate (m + 1) (List.replicate 64 (0 : Nat))).length = s + (m + 1) := by
      simp [cacheFillSpec]
    have hbuf : (cacheFillSpec h512 seed s).flatten ++ List.replicate (64 * (m + 1)) 0 =
        (cacheFillSpec h512 seed s ++
          List.replicate (m + 1) (List.replicate 64 (0 : Nat))).flatten := by
      rw [List.flatten_append, flatten_replicate_replicate]
    rw [List.range'_succ, List.foldl_cons, hbuf]
    have hread : pySlice (cacheFillSpec h512 seed s ++
        List.replicate (m + 1) (List.replicate 64 (0 : Nat))).flatten (64 * s - 64) 64 =
        cacheRowSpec h512 seed (s - 1) := by
      have h1 : 64 * s - 64 = (s - 1) * 64 := by omega
      rw [h1, pySlice_flatten_row' 64 _ hrows (s - 1) (by rw [hcount]; omega)]
      rw [List.getD_append _ _ _ _ (by simp [cacheFillSpec]; omega)]
      unfold cacheFillSpec
      exact getD_map_range _ _ _ (by omega) _
    rw [hread]
    have hset : pySetSlice (cacheFillSpec h512 seed s ++
        List.replicate (m + 1) (List.replicate 64 (0 : Nat))).flatten (64 * s)
        (h512 (cacheRowSpec h512 seed (s - 1))) =
        (cacheFillSpec h512 seed (s + 1) ++
          List.replicate m (List.replicate 64 (0 : Nat))).flatten := by
      rw [show 64 * s = s * 64 from by ring,
        pySetSlice_flatten_row' 64 _ hrows s (by rw [hcount]; omega) _ (hl _)]
      congr 1
      rw [List.set_append_right _ _ (by simp [cacheFillSpec]),
        show s - (cacheFillSpec h512 seed s).length = 0 from by simp [cacheFillSpec],
        List.replicate_succ, List.set_cons_zero]
      have hrow : h512 (cacheRowSpec h512 seed (s - 1)) = cacheRowSpec h512 seed s := by
        cases s with
        | zero => omega
        | succ t => simp [cacheRowSpec]
      rw [hrow]
      unfold cacheFillSpec
      rw [List.range_succ, List.map_append, List.map_cons, List.map_nil, List.append_assoc]
      simp
    rw [hset]
    have hstart : 64 * s + 64 = 64 * (s + 1) := by ring
    rw [hstart]
    have := ih (s + 1) (by omega)
    rw [List.flatten_append, flatten_replicate_replicate, this,
      show s + 1 + m = s + (m + 1) from by ring]

theorem scrambleFlat_row_eq (h512 : List Nat → List Nat)
    (hl : ∀ b, (h512 b).length = 64) (R : Nat) (hR : 0 < R) (rows : List (List Nat))
    (hcount : rows.length = R) (hw : ∀ r ∈ rows, r.length = 64) (j : Nat) (hj : j < R) :
    scrambleFlatStep h512 R rows.flatten j = (scrambleRowSpec h512 R rows j).flatten := by
  simp only [scrambleFlatStep, scrambleRowSpec]
  rw [show HASH_BYTES = 64 from rfl]
  have hval : pySlice rows.flatten (j * 64) 4 = (rows.getD j []).take 4 := by
    rw [← pySlice_take rows.flatten (j * 64) 64 4 (by norm_num),
      pySlice_flatten_row' 64 rows hw j (by omega)]
  rw [hval,
    pySlice_flatten_row' 64 rows hw ((j + R - 1) % R) (by rw [hcount]; exact Nat.mod_lt _ hR),
    pySlice_flatten_row' 64 rows hw (le_to_int ((rows.getD j []).take 4) % R)
      (by rw [hcount]; exact Nat.mod_lt _ hR),
    pySetSlice_flatten_row' 64 rows hw j (by omega) _ (hl _)]

theorem scrambleFold_eq (h512 : List Nat → List Nat)
    (hl : ∀ b, (h512 b).length = 64) (R : Nat) (hR : 0 < R) :
    ∀ (idxs : List Nat) (rows : List (List Nat)), rows.length = R →
      (∀ r ∈ rows, r.length = 64) → (∀ j ∈ idxs, j < R) →
      idxs.foldl (scrambleFlatStep h512 R) rows.flatten =
        (idxs.foldl (scrambleRowSpec h512 R) rows).flatten ∧
      (idxs.foldl (scrambleRowSpec h512 R) rows).length = R ∧
      ∀ r ∈ idxs.foldl (scrambleRowSpec h512 R) rows, r.length = 64 := by
  intro idxs
  induction idxs with
  | nil => exact fun rows h1 h2 _ => ⟨rfl, h1, h2⟩
  | cons j l ih =>
    intro rows h1 h2 h3
    rw [List.foldl_cons, List.foldl_cons,
      scrambleFlat_row_eq h512 hl R hR rows h1 h2 j (h3 j (by simp))]
    apply ih
    · unfold scrambleRowSpec
      simp [h1]
    · intro r hr
      unfold scrambleRowSpec at hr
      rcases List.mem_or_eq_of_mem_set hr with h | h
      · exact h2 r h
      · rw [h]
        exact hl _
    · exact fun i hi => h3 i (by simp [hi])

theorem scrambleRounds_eq (h512 : List Nat → List Nat)
    (hl : ∀ b, (h512 b).length = 64) (R : Nat) (hR : 0 < R) :
    ∀ (n : Nat) (rows : List (List Nat)), rows.length = R →
      (∀ r ∈ rows, r.length = 64) →
      (List.range n).foldl
          (fun buf _ => (List.range R).foldl (scrambleFlatStep h512 R) buf) rows.flatten =
        ((List.range n).foldl (fun rows _ => scrambleRoundSpec h512 R rows) rows).flatten ∧
      ((List.range n).foldl (fun rows _ => scrambleRoundSpec h512 R rows) rows).length = R ∧
      ∀ r ∈ (List.range n).foldl (fun rows _ => scrambleRoundSpec h512 R rows) rows,
        r.length = 64 := by
  intro n
  induction n with
  | zero => exact fun rows h1 h2 => ⟨rfl, h1, h2⟩
  | succ n ih =>
    intro rows h1 h2
    obtain ⟨e1, e2, e3⟩ := ih rows h1 h2
    rw [List.range_succ, List.foldl_append, List.foldl_append, List.foldl_cons,
      List.foldl_cons, List.foldl_nil, List.foldl_nil, e1]
    obtain ⟨f1, f2, f3⟩ := scrambleFold_eq h512 hl R hR (List.range R) _ e2 e3
      (fun j hj => List.mem_range.1 hj)
    exact ⟨f1, f2, f3⟩

/-- Claim C1: generate_cache(seed, block_number) equals the row-level
description: row 0 = hash512(seed), row i = hash512(row (i-1)) for
cacheSize/64 - 1 further rows, then exactly 3 scramble rounds visiting
every row j in increasing order with srcIdx = (j - 1 + R) mod R and
xorIdx = (first little-endian 32-bit word of the current row j) mod R,
replacing row j in place by hash512(row srcIdx XOR row xorIdx) with reads
seeing rows as progressively updated; the result is the byte buffer
reinterpreted as little-endian 32-bit words. -/
theorem generate_cache_correct (h512 : List Nat → List Nat)
    (hl : ∀ b, (h512 b).length = 64) (seed : List Nat) (block_number : Nat) :
    generate_cache h512 seed block_number =
      bytesToWords (cacheSpec h512 seed (cacheSizeSelected block_number / 64)).flatten := by
  obtain ⟨hdvd, hge⟩ := cacheSizeSelected_div64 block_number
  obtain ⟨R, hR⟩ := hdvd
  have hR1 : 1 ≤ R := by
    rw [hR] at hge
    omega
  have hdivR : cacheSizeSelected block_number / 64 = R := by
    rw [hR]
    exact Nat.mul_div_cancel_left R (by norm_num)
  simp only [generate_cache, show HASH_BYTES = 64 from rfl]
  rw [hdivR]
  have hbuf0 : pySetSlice (List.replicate (cacheSizeSelected block_number) 0) 0 (h512 seed) =
      (cacheFillSpec h512 seed 1).flatten ++ List.replicate (64 * (R - 1)) 0 := by
    unfold pySetSlice
    simp only [List.take_zero, List.nil_append, Nat.zero_add, hl, List.drop_replicate]
    have hone : cacheFillSpec h512 seed 1 = [h512 seed] := rfl
    rw [hone]
    simp only [List.flatten_cons, List.flatten_nil, List.append_nil]
    rw [hR, show 64 * R - 64 = 64 * (R - 1) from by omega]
  have hlenoff : (cacheSizeSelected block_number - 64 + 64 - 1) / 64 = R - 1 := by
    rw [hR, show 64 * R - 64 + 64 - 1 = 63 + (R - 1) * 64 from by omega,
      Nat.add_mul_div_right 63 (R - 1) (by norm_num)]
    norm_num
  have hrange : pyRange 64 (cacheSizeSelected block_number) 64 =
      List.range' (64 * 1) (R - 1) 64 := by
    unfold pyRange
    rw [hlenoff]
  rw [hrange, hbuf0, generate_cache_fill h512 hl seed (R - 1) 1 (by omega),
    show 1 + (R - 1) = R from by omega]
  have hcount : (cacheFillSpec h512 seed R).length = R := by
    simp [cacheFillSpec]
  have hlen64 : ∀ r ∈ cacheFillSpec h512 seed R, r.length = 64 := by
    intro r hr
    simp only [cacheFillSpec, List.mem_map] at hr
    obtain ⟨i, -, hi⟩ := hr
    rw [← hi]
    exact cacheRowSpec_length h512 hl seed i
  obtain ⟨e1, -, -⟩ := scrambleRounds_eq h512 hl R (by omega) 3
    (cacheFillSpec h512 seed R) hcount hlen64
  rw [e1]
  rfl

/-- Witness for generate_cache_correct with the constant length-64 hash,
empty seed and block number 0. -/
theorem generate_cache_correct_witness :
    generate_cache constH512 [] 0 =
      bytesToWords (cacheSpec constH512 [] (cacheSizeSelected 0 / 64)).flatten :=
  generate_cache_correct constH512 (fun _ => by simp [constH512]) [] 0
